import Mathlib

/-!
Verification development for the dircord message relay (Discord ↔ IRC bridge).

Strings are modelled as lists of Unicode code points (`List Nat`); byte
positions and byte budgets are computed through the UTF-8 width of each code
point, so "splitting inside a multi-byte code point" is the situation where a
byte offset falls strictly inside the width of one code point.  Chunks
produced by the model are lists of whole code points, which is exactly the
guarantee `str::get(..offset)` gives in the source: the source never produces
a byte slice that is not a code-point boundary, it instead retries a smaller
offset, and the model mirrors that search.

Regex-based substitution passes of the source are compiled by hand into
left-to-right scanners (`scanReplace` below): each concrete regex of the
source becomes one matcher function whose comment quotes the regex it
implements.  Stateful iterators become step functions plus explicit fuel.
-/

/-- UTF-8 byte width of a code point (1 for ASCII, up to 4), as used by
Rust's `str` byte indexing. -/
def utf8Len (c : Nat) : Nat :=
  if c < 0x80 then 1 else if c < 0x800 then 2 else if c < 0x10000 then 3 else 4

/-- Byte length of a string (list of code points), i.e. Rust `str::len`. -/
def byteLen (s : List Nat) : Nat := (s.map utf8Len).sum

/-- ASCII whitespace recognised by the `\s` regex class (space, tab, LF, VT,
FF, CR).  The engine's `\s` also covers rare Unicode spaces; the model keeps
the ASCII core, which is what every claim exercises. -/
def isWsB (c : Nat) : Bool :=
  c == 32 || c == 9 || c == 10 || c == 11 || c == 12 || c == 13

/-- Regex class `[0-9]`. -/
def isDigitB (c : Nat) : Bool := 48 ≤ c && c ≤ 57

/-- Regex class `\w` (ASCII word characters: letters, digits, underscore). -/
def isWordB (c : Nat) : Bool :=
  (48 ≤ c && c ≤ 57) || (65 ≤ c && c ≤ 90) || (97 ≤ c && c ≤ 122) || c == 95

/-- Greedy `[0-9]+` split: longest digit run and the remainder. -/
def takeDigits (s : List Nat) : List Nat × List Nat :=
  (s.takeWhile isDigitB, s.dropWhile isDigitB)

/-- Value of a decimal digit run, i.e. `str::parse::<u64>` ignoring overflow
(claims that use it carry a `< 2^64` hypothesis where relevant). -/
def decVal (s : List Nat) : Nat := s.foldl (fun acc d => acc * 10 + (d - 48)) 0

/-- Decimal rendering of a number as code points, i.e. `format!("{}", n)`. -/
def natDec (n : Nat) : List Nat := (Nat.toDigits 10 n).map Char.toNat

/-- Boolean "p is a leading segment of s" used to model `str::starts_with` /
`str::strip_prefix`. -/
def startsList : List Nat → List Nat → Bool
  | [], _ => true
  | _ :: _, [] => false
  | p :: ps, c :: cs => p == c && startsList ps cs

/-- Model of `str::strip_prefix`: drop a verified leading segment. -/
def startsStrip (p s : List Nat) : Option (List Nat) :=
  if startsList p s then some (s.drop p.length) else none

/-- Model of `str::trim` (both ends; ASCII whitespace, see `isWsB`). -/
def trimWs (s : List Nat) : List Nat :=
  ((s.dropWhile isWsB).reverse.dropWhile isWsB).reverse

/-- Model of `str::trim_matches('\u{f}')`: strip reset bytes from both ends. -/
def trimChar15 (s : List Nat) : List Nat :=
  ((s.dropWhile (fun c => c == 15)).reverse.dropWhile (fun c => c == 15)).reverse

/-- Split at every LF, keeping empty pieces (helper for `linesOf`). -/
def splitNl : List Nat → List (List Nat)
  | [] => [[]]
  | c :: t =>
    if c = 10 then [] :: splitNl t
    else
      match splitNl t with
      | h :: r => (c :: h) :: r
      | [] => [[c]]

/-- Strip one trailing CR from a line (helper for `linesOf`). -/
def dropCr (l : List Nat) : List Nat :=
  match l.getLast? with
  | some 13 => l.dropLast
  | _ => l

/-- Model of `str::lines`: split on LF, drop a final empty piece produced by a
trailing newline, strip a trailing CR from each line. -/
def linesOf (s : List Nat) : List (List Nat) :=
  let ps := splitNl s
  let ps :=
    match ps.getLast? with
    | some [] => ps.dropLast
    | _ => ps
  ps.map dropCr

/-! ### Chunker (`StrChunks`, src/discord_irc.rs lines 25-64) -/

/-- State of the `StrChunks` iterator: remaining string and byte budget. -/
structure StrChunks where
  v : List Nat
  size : Nat
deriving DecidableEq

/-- Longest prefix of whole code points whose byte length fits the budget,
with the remainder.  This realizes the source's boundary search: `offset`
starts at `size` and decreases until `self.v.get(..offset)` is `Some`, i.e.
until `offset` is a code-point boundary; since boundaries are exactly the
partial sums of code-point widths, the largest boundary `≤ size` is the byte
length of the greedy prefix taken here. -/
def takeBoundary : Nat → List Nat → List Nat × List Nat
  | _, [] => ([], [])
  | budget, c :: rest =>
    if utf8Len c ≤ budget then
      let p := takeBoundary (budget - utf8Len c) rest
      (c :: p.1, p.2)
    else ([], c :: rest)

/-- One `Iterator::next` step of `StrChunks` (src/discord_irc.rs lines 33-57):
empty remainder ends the iteration; a remainder strictly under the budget is
yielded whole; otherwise the longest boundary-aligned prefix of at most
`size` bytes is yielded. -/
def StrChunks.next (s : StrChunks) : Option (List Nat × StrChunks) :=
  if s.v = [] then none
  else if byteLen s.v < s.size then some (s.v, ⟨[], s.size⟩)
  else
    let p := takeBoundary s.size s.v
    some (p.1, ⟨p.2, s.size⟩)

/-- Drive the `StrChunks` iterator for at most `fuel` steps, collecting the
yielded chunks.  (The source iterator is driven by a `for` loop; fuel equal to
the number of code points is enough whenever every step consumes input, which
the termination claim establishes for budgets ≥ 4.) -/
def chunksFuel : Nat → StrChunks → List (List Nat)
  | 0, _ => []
  | f + 1, s =>
    match s.next with
    | none => []
    | some (c, s') => c :: chunksFuel f s'

/-- The chunk list obtained with fuel equal to the code-point count of the
remaining input. -/
def StrChunks.toList (s : StrChunks) : List (List Nat) := chunksFuel s.v.length s

/-! ### Regex replacement machinery

Each regex of the source is hand-compiled into a matcher: given the text from
some position on, it either fails or returns the replacement text together
with the remainder after the matched region.  `scanReplace` is the
left-to-right, leftmost-match, non-overlapping driver shared by every
`Regex::replace_all` call in the source; it is fuelled by the text length,
which is sufficient because every matcher consumes at least one code point
per match. -/

/-- A matcher: from the current suffix, either no match starting here, or the
replacement plus the remainder after the matched region. -/
abbrev Matcher := List Nat → Option (List Nat × List Nat)

/-- Fuelled scanner for `replace_all`: at each position try the matcher;
on a match emit the replacement and continue after the matched region,
otherwise keep the code point and move one position right. -/
def scanReplaceF (m : Matcher) : Nat → List Nat → List Nat
  | 0, s => s
  | _ + 1, [] => []
  | f + 1, c :: rest =>
    match m (c :: rest) with
    | some (rep, after) => rep ++ scanReplaceF m f after
    | none => c :: scanReplaceF m f rest

/-- `Regex::replace_all` model. -/
def scanReplace (m : Matcher) (s : List Nat) : List Nat := scanReplaceF m s.length s

/-- Matchers that strictly consume input on every match. -/
def Consuming (m : Matcher) : Prop :=
  ∀ s rep after, m s = some (rep, after) → after.length < s.length

/-- No match starts at any position of `s`. -/
def NoMatch (m : Matcher) : List Nat → Prop
  | [] => True
  | c :: t => m (c :: t) = none ∧ NoMatch m t

/-! ### Rich→Line transcoder (src/discord_irc.rs, `discord_to_irc_processing`) -/

/-- Skip `http://` / `https://` after the opening `<` of the URL-escape
regex, returning the protocol text and the remainder. -/
def stripHttp (t : List Nat) : Option (List Nat × List Nat) :=
  if startsList [104, 116, 116, 112, 115, 58, 47, 47] t then
    some ([104, 116, 116, 112, 115, 58, 47, 47], t.drop 8)
  else if startsList [104, 116, 116, 112, 58, 47, 47] t then
    some ([104, 116, 116, 112, 58, 47, 47], t.drop 7)
  else none

/-- Index of the last `>` in a list, if any. -/
def lastGt (l : List Nat) : Option Nat :=
  (l.reverse.findIdx? (fun c => c == 62)).map (fun i => l.length - 1 - i)

/-- `URL_ESCAPE_RE = <(https?://[^\s/$.?#].\S*)>`, replacement `$1`: unwrap an
angle-bracket-escaped URL to its bare text.  The greedy `\S*` with the
closing literal `>` matches up to the last `>` inside the maximal non-space
run, which `lastGt` computes. -/
def urlMatch : Matcher
  | c :: t =>
    if c = 60 then
      match stripHttp t with
      | some (proto, u) =>
        match u with
        | c1 :: u1 =>
          if isWsB c1 || c1 == 47 || c1 == 36 || c1 == 46 || c1 == 63 || c1 == 35 then none
          else
            match u1 with
            | c2 :: u2 =>
              if c2 = 10 then none
              else
                let run := u2.takeWhile (fun d => !isWsB d)
                let rest := u2.dropWhile (fun d => !isWsB d)
                match lastGt run with
                | some i => some (proto ++ c1 :: c2 :: run.take i, run.drop (i + 1) ++ rest)
                | none => none
            | [] => none
        | [] => none
      | none => none
    else none
  | [] => none

/-- `PING_RE_1 = <@([0-9]+)>` with `MemberReplacer` (src/discord_irc.rs lines
253-271): a mention whose id is found in the roster becomes
`@<display name>`; an unresolved mention is emitted byte-for-byte unchanged
(`caps.get(0)`).  Members are `(id, displayName)` pairs. -/
def ping1Match (members : List (Nat × List Nat)) : Matcher
  | c1 :: c2 :: t =>
    if c1 = 60 ∧ c2 = 64 then
      let ds := (takeDigits t).1
      if ds = [] then none
      else
        match (takeDigits t).2 with
        | r :: rest' =>
          if r = 62 then
            match members.find? (fun mem => mem.1 == decVal ds) with
            | some mem => some (64 :: mem.2, rest')
            | none => some (60 :: 64 :: ds ++ [62], rest')
          else none
        | [] => none
    else none
  | _ => none

/-- `PING_RE_2 = <@!([0-9]+)>` with the same `MemberReplacer`. -/
def ping2Match (members : List (Nat × List Nat)) : Matcher
  | c1 :: c2 :: c3 :: t =>
    if c1 = 60 ∧ c2 = 64 ∧ c3 = 33 then
      let ds := (takeDigits t).1
      if ds = [] then none
      else
        match (takeDigits t).2 with
        | r :: rest' =>
          if r = 62 then
            match members.find? (fun mem => mem.1 == decVal ds) with
            | some mem => some (64 :: mem.2, rest')
            | none => some (60 :: 64 :: 33 :: ds ++ [62], rest')
          else none
        | [] => none
    else none
  | _ => none

/-- `EMOJI_RE = <:(\w+):[0-9]+>`, replacement `:$1:`. -/
def emojiMatchD : Matcher
  | c1 :: c2 :: t =>
    if c1 = 60 ∧ c2 = 58 then
      let wd := t.takeWhile isWordB
      if wd = [] then none
      else
        match t.dropWhile isWordB with
        | m :: r2 =>
          if m = 58 then
            let ds := r2.takeWhile isDigitB
            if ds = [] then none
            else
              match r2.dropWhile isDigitB with
              | g :: r4 => if g = 62 then some (58 :: wd ++ [58], r4) else none
              | [] => none
          else none
        | [] => none
    else none
  | _ => none

/-- Code points of the literal `deleted-channel` placeholder. -/
def deletedChannel : List Nat :=
  [100, 101, 108, 101, 116, 101, 100, 45, 99, 104, 97, 110, 110, 101, 108]

/-- `CHANNEL_RE = <#([0-9]+)>` resolved through the channel lookup: a guild
channel becomes `#<name>`, anything else `#deleted-channel`.  The source
iterates `captures_iter` over a snapshot and replaces the first remaining
match each round; since no replacement re-matches the pattern this equals a
single left-to-right replace-all. -/
def channelMatchD (chanName : Nat → Option (List Nat)) : Matcher
  | c1 :: c2 :: t =>
    if c1 = 60 ∧ c2 = 35 then
      let ds := (takeDigits t).1
      if ds = [] then none
      else
        match (takeDigits t).2 with
        | r :: rest' =>
          if r = 62 then
            match chanName (decVal ds) with
            | some name => some (35 :: name, rest')
            | none => some (35 :: deletedChannel, rest')
          else none
        | [] => none
    else none
  | _ => none

/-- `ROLE_RE = <@&([0-9]+)>` with `OptionReplacer`.  Modelled from the spec:
`OptionReplacer` lives at the crate root (not under src/); per §4.3 step 5 a
resolved role becomes `@<role name>` and an unresolved token is left
unchanged. -/
def roleMatch (roleName : Nat → Option (List Nat)) : Matcher
  | c1 :: c2 :: c3 :: t =>
    if c1 = 60 ∧ c2 = 64 ∧ c3 = 38 then
      let ds := (takeDigits t).1
      if ds = [] then none
      else
        match (takeDigits t).2 with
        | r :: rest' =>
          if r = 62 then
            match roleName (decVal ds) with
            | some name => some (64 :: name, rest')
            | none => some (60 :: 64 :: 38 :: ds ++ [62], rest')
          else none
        | [] => none
    else none
  | _ => none

/-- `PING_RE_1` with replacement `{@$1}`: the "switch brackets of unknown
pings" pass (src/discord_irc.rs line 322). -/
def bracketMatch : Matcher
  | c1 :: c2 :: t =>
    if c1 = 60 ∧ c2 = 64 then
      let ds := (takeDigits t).1
      if ds = [] then none
      else
        match (takeDigits t).2 with
        | r :: rest' =>
          if r = 62 then some (123 :: 64 :: ds ++ [125], rest')
          else none
        | [] => none
    else none
  | _ => none

/-- `PING_RE_3 = \{@([0-9]+)\}` with replacement `<@$1>`: the final "switch
them back" pass (src/discord_irc.rs line 388). -/
def restoreMatch : Matcher
  | c1 :: c2 :: t =>
    if c1 = 123 ∧ c2 = 64 then
      let ds := (takeDigits t).1
      if ds = [] then none
      else
        match (takeDigits t).2 with
        | r :: rest' =>
          if r = 125 then some (60 :: 64 :: ds ++ [62], rest')
          else none
        | [] => none
    else none
  | _ => none

/-- Modelled from the spec: the markdown re-emission stage (§4.3 step 6) is
performed by the external `pulldown_cmark` parser, whose source is not part
of this repository.  For a single-paragraph plain-text line (no markup
constructs, no leading/trailing whitespace) the parser emits the text as one
`Text` event, pushed unchanged, and `End(Paragraph)` appends a line break.
Theorems only apply this stage to such plain lines. -/
def mdPlain (s : List Nat) : List Nat := s ++ [10]

/-- The Rich→Line body transcoder `discord_to_irc_processing`
(src/discord_irc.rs lines 247-391): URL unescape, two mention passes, emoji,
channel and role substitution, bracket-escape of still-unresolved mentions,
markdown re-emission, and restoration of the escaped mentions. -/
def discord_to_irc_processing (message : List Nat) (members : List (Nat × List Nat))
    (chanName : Nat → Option (List Nat)) (roleName : Nat → Option (List Nat)) : List Nat :=
  let c0 := scanReplace urlMatch message
  let c1 := scanReplace (ping1Match members) c0
  let c2 := scanReplace (ping2Match members) c1
  let c3 := scanReplace emojiMatchD c2
  let c4 := scanReplace (channelMatchD chanName) c3
  let c5 := scanReplace (roleMatch roleName) c4
  let c6 := scanReplace bracketMatch c5
  let c7 := mdPlain c6
  scanReplace restoreMatch c7

/-! ### Author badge colour index (claim C4) -/

/-- Colour index of `create_prefix` (src/discord_irc.rs lines 66-88):
`(first_char as usize + nick.len()) % 12`, the code point of the first
character plus the byte length of the name, mod 12.  The function also
unwraps a second `char_indices` entry before computing the index, so names of
fewer than two characters panic (`none` here). -/
def colour_index : List Nat → Option Nat
  | c1 :: c2 :: rest => some ((c1 + byteLen (c1 :: c2 :: rest)) % 12)
  | _ => none

/-- Colour index of the inline formatter in `Handler::message`
(src/main.rs lines 61-63): the first character is cast to `u8` first
(`nick.chars().nth(0).unwrap() as u8`), truncating the code point mod 256;
an empty name panics (`none` here). -/
def colourIndexMain : List Nat → Option Nat
  | [] => none
  | c :: rest => some ((c % 256 + byteLen (c :: rest)) % 12)

/-! ### Reply truncation (claim C2) -/

/-- Modelled from the spec: `truncate_ellipse` is provided by the external
`ellipse` crate (not part of this repository); per its documented behaviour a
string of at most `len` characters is returned unchanged, otherwise the first
`len` characters are kept and the three-byte ellipsis `...` is appended
(`len = 0` yields the empty string).  Called at src/discord_irc.rs line 161. -/
def truncate_ellipse (len : Nat) (s : List Nat) : List Nat :=
  if s.length ≤ len then s
  else if len = 0 then []
  else s.take len ++ [46, 46, 46]

/-- Byte slice `&s[..n]` as used by src/main.rs line 324: defined only when
`n` bytes cover whole code points (otherwise Rust panics, `none` here). -/
def byteSlice : Nat → List Nat → Option (List Nat)
  | 0, _ => some []
  | _ + 1, [] => none
  | n + 1, c :: t =>
    if utf8Len c ≤ n + 1 then (byteSlice (n + 1 - utf8Len c) t).map (c :: ·) else none

/-- Reply text of the older inline handler (src/main.rs lines 323-327):
`if content.len() > reply_content_limit { format!("{}...", &content[..limit]) }
else { content }`. -/
def replyToSendMain (limit : Nat) (content : List Nat) : Option (List Nat) :=
  if limit < byteLen content then (byteSlice limit content).map (· ++ [46, 46, 46])
  else some content

/-! ### Outbound send stage of `Handler::message` (claim C6,
src/discord_irc.rs lines 173-190) -/

/-- The chunked branch: each line of the transcoded body is chunked to the
content limit and each chunk is sent as `{prefix}{chunk trimmed of \x0F}`. -/
def chunkSends (pfx : List Nat) (limit : Nat) (computed : List Nat) : List (List Nat) :=
  ((linesOf computed).map fun l =>
    (chunksFuel l.length ⟨l, limit⟩).map fun ch => pfx ++ trimChar15 ch).flatten

/-- The lines sent for one message body: if the TRANSCODED body starts with
the raw-passthrough marker and the trimmed remainder is nonempty, send the
badge prefix line and then the trimmed remainder (minus surrounding \x0F) as
one literal un-chunked line; otherwise chunk every line.  (Attachment sends
follow afterwards in the source and are outside this model.) -/
def handlerSends (rawPre pfx : List Nat) (limit : Nat) (computed : List Nat) :
    List (List Nat) :=
  match startsStrip rawPre computed with
  | some stripped =>
    let v := trimWs stripped
    if v ≠ [] then [pfx, trimChar15 v] else chunkSends pfx limit computed
  | none => chunkSends pfx limit computed

/-! ### Line→Rich transcoder (src/irc_discord.rs, `irc_to_discord_processing`) -/

/-- `WHITESPACE_RE = ^\s`: the line starts with whitespace. -/
def wsStart : List Nat → Bool
  | [] => false
  | c :: _ => isWsB c

/-- Existence test for `PING_RE_2 = (?<=\s|^)@([\w\S]+)`: an `@` at the
start or after whitespace, followed by at least one non-space character
(the class `[\w\S]` is the union of word and non-space characters, which is
just non-space).  `pw` tracks whether the previous character satisfies the
lookbehind. -/
def hasMentionAux : Bool → List Nat → Bool
  | _, [] => false
  | pw, c :: t =>
    (pw && c == 64 && (match t with | d :: _ => !isWsB d | [] => false))
      || hasMentionAux (isWsB c) t

/-- The line contains an `@mention` token. -/
def hasMention (s : List Nat) : Bool := hasMentionAux true s

/-- The mutable `id_cache: HashMap<String, Option<u64>>` of the IRC loop,
modelled associatively. -/
abbrev IdCache := List (List Nat × Option Nat)

/-- `id_cache.entry(slice).or_insert_with(|| members.find(...))` from the
IRC-side `MemberReplacer` (src/irc_discord.rs lines 245-265): a cached entry
(even a negative one) is returned as is; on a miss the roster is scanned for
an exact display-name match and the result is memoized.  Members are
`(id, displayName)` pairs. -/
def resolveName (cache : IdCache) (members : List (Nat × List Nat))
    (slice : List Nat) : Option Nat × IdCache :=
  match cache.find? (fun e => e.1 == slice) with
  | some e => (e.2, cache)
  | none =>
    let r := (members.find? (fun mem => mem.2 == slice)).map (fun mem => mem.1)
    (r, (slice, r) :: cache)

/-- `UserId::mention` rendering `<@{id}>`. -/
def mentionTok (id : Nat) : List Nat := 60 :: 64 :: natDec id ++ [62]

/-- Regex class `[\w+]` (word characters or a literal plus). -/
def isWordPlusB (c : Nat) : Bool := isWordB c || c == 43

/-- `PING_NICK_1 = ^([\w+]+)(:|,)` with the IRC-side `MemberReplacer`: a
leading `nickname:`/`nickname,` token.  Anchored, so it can only fire at
position 0 and at most once; the whole match (separator included) is replaced
by the mention token when the name resolves, and is left unchanged otherwise.
The separator is outside the `[\w+]` class, so the greedy run needs no
backtracking. -/
def pingNick1Pass (members : List (Nat × List Nat)) (cache : IdCache)
    (s : List Nat) : List Nat × IdCache :=
  let run := s.takeWhile isWordPlusB
  if run = [] then (s, cache)
  else
    match s.dropWhile isWordPlusB with
    | sep :: rest' =>
      if sep = 58 ∨ sep = 44 then
        let rc := resolveName cache members run
        match rc.1 with
        | some id => (mentionTok id ++ rest', rc.2)
        | none => (run ++ sep :: rest', rc.2)
      else (s, cache)
    | [] => (s, cache)

/-- `PING_RE_2 = (?<=\s|^)@([\w\S]+)` with the IRC-side `MemberReplacer`,
as a scanner threading the lookbehind flag (`pw`) and the id cache.  The
lookbehind is evaluated against the original text, so after a match scanning
resumes after the matched run with `pw = false` (the run's last character is
non-space). -/
def mentionPass (members : List (Nat × List Nat)) :
    Bool → IdCache → List Nat → List Nat × IdCache
  | _, cache, [] => ([], cache)
  | pw, cache, c :: t =>
    if pw ∧ c = 64 ∧ t.takeWhile (fun d => !isWsB d) ≠ [] then
      let run := t.takeWhile (fun d => !isWsB d)
      let after := t.dropWhile (fun d => !isWsB d)
      let rc := resolveName cache members run
      let rep := match rc.1 with | some id => mentionTok id | none => 64 :: run
      let res := mentionPass members false rc.2 after
      (rep ++ res.1, res.2)
    else
      let res := mentionPass members (isWsB c) cache t
      (c :: res.1, res.2)
termination_by _ _ s => s.length
decreasing_by
  · have h : (t.dropWhile (fun d => !isWsB d)).length ≤ t.length :=
      List.IsSuffix.length_le (List.dropWhile_suffix _)
    simp only [List.length_cons]
    omega
  · simp only [List.length_cons]
    omega

/-- Regex class `[A-Za-z-*]` of the IRC `CHANNEL_RE`. -/
def isChanB (c : Nat) : Bool :=
  (65 ≤ c && c ≤ 90) || (97 ≤ c && c ≤ 122) || c == 45 || c == 42

/-- `CHANNEL_RE = #([A-Za-z-*]+)` with `OptionReplacer`: a channel name that
resolves becomes `<#{id}>`; an unresolved one is left unchanged.  (Modelled
from the spec for `OptionReplacer`, see `roleMatch`.)  Channels are
`(id, name)` pairs. -/
def channelIrcMatch (channels : List (Nat × List Nat)) : Matcher
  | c :: t =>
    if c = 35 then
      let run := t.takeWhile isChanB
      if run = [] then none
      else
        match channels.find? (fun ch => ch.2 == run) with
        | some ch => some (60 :: 35 :: natDec ch.1 ++ [62], t.dropWhile isChanB)
        | none => some (35 :: run, t.dropWhile isChanB)
    else none
  | [] => none

/-- `EMOJI_RE = :(\w+):` with `OptionReplacer`: a known emoji shortcode
becomes `<:{name}:{id}>`, an unknown one stays.  Emojis are `(id, name)`
pairs. -/
def emojiIrcMatch (emojis : List (Nat × List Nat)) : Matcher
  | c :: t =>
    if c = 58 then
      let run := t.takeWhile isWordB
      if run = [] then none
      else
        match t.dropWhile isWordB with
        | r :: rest' =>
          if r = 58 then
            match emojis.find? (fun e => e.2 == run) with
            | some e => some (60 :: 58 :: e.2 ++ 58 :: natDec e.1 ++ [62], rest')
            | none => some (58 :: run ++ [58], rest')
          else none
        | [] => none
    else none
  | [] => none

/-- CTCP action unwrap (src/irc_discord.rs lines 312-319):
`\x01ACTION ...\x01` becomes `*...*`; if either marker is missing the text
is left unchanged. -/
def actionUnwrap (s : List Nat) : List Nat :=
  match startsStrip [1, 65, 67, 84, 73, 79, 78, 32] s with
  | some rest =>
    match rest.getLast? with
    | some 1 => 42 :: rest.dropLast ++ [42]
    | _ => s
  | none => s

/-- One emission of the bold/italic conversion loop: a bold marker (`**`),
an italic marker (`*`), or a plain character. -/
inductive MTok
  | bold
  | ital
  | ch (c : Nat)
deriving DecidableEq

/-- The bold/italic conversion loop (src/irc_discord.rs lines 324-337):
`\x02`, or `\x0F` while bold is open, emits `**` and toggles the bold flag;
otherwise `\x1D`, or `\x0F` while italic is open, emits `*` and toggles the
italic flag; any other character is copied.  Returns the emissions and the
final flags. -/
def markupFold : List Nat → Bool → Bool → List MTok × Bool × Bool
  | [], ob, oi => ([], ob, oi)
  | c :: t, ob, oi =>
    if c = 2 ∨ (c = 15 ∧ ob = true) then
      let r := markupFold t (!ob) oi
      (MTok.bold :: r.1, r.2)
    else if c = 29 ∨ (c = 15 ∧ oi = true) then
      let r := markupFold t ob (!oi)
      (MTok.ital :: r.1, r.2)
    else
      let r := markupFold t ob oi
      (MTok.ch c :: r.1, r.2)

/-- The loop's emissions followed by the force-close of any still-open
italic and then bold markup (src/irc_discord.rs lines 339-345). -/
def markupTokens (s : List Nat) : List MTok :=
  let r := markupFold s false false
  r.1 ++ (if r.2.2 then [MTok.ital] else []) ++ (if r.2.1 then [MTok.bold] else [])

/-- Characters pushed for one emission: `**`, `*`, or the character. -/
def renderTok : MTok → List Nat
  | MTok.bold => [42, 42]
  | MTok.ital => [42]
  | MTok.ch c => [c]

/-- Number of bold markers in an emission list. -/
def countBold : List MTok → Nat
  | [] => 0
  | MTok.bold :: t => countBold t + 1
  | _ :: t => countBold t

/-- Number of italic markers in an emission list. -/
def countItal : List MTok → Nat
  | [] => 0
  | MTok.ital :: t => countItal t + 1
  | _ :: t => countItal t

/-- `String::replace(char, str)`: replace every occurrence of one character. -/
def replaceAllChar (c : Nat) (rep : List Nat) (s : List Nat) : List Nat :=
  s.flatMap (fun x => if x = c then rep else [x])

/-- One iteration of the older main.rs bold/italic loop (src/main.rs lines
712-732): the loop walks the characters of a CLONE of the text while
mutating the text itself with global `replace`, and the open flags are
sticky — `\x02` always sets `has_opened_bold = true` (never toggles it
off), `\x1D` likewise for italic, and `\x0F` closes italic first, else
bold.  State is `(computed, has_opened_bold, has_opened_italic)`. -/
def mainMarkupStep (st : List Nat × Bool × Bool) (c : Nat) : List Nat × Bool × Bool :=
  let st1 := if c = 2 then (replaceAllChar 2 [42, 42] st.1, true, st.2.2) else st
  let st2 := if c = 29 then (replaceAllChar 29 [42] st1.1, st1.2.1, true) else st1
  if c = 15 then
    if st2.2.2 = true then (replaceAllChar 15 [42] st2.1, st2.2.1, false)
    else if st2.2.1 = true then (replaceAllChar 15 [42, 42] st2.1, false, st2.2.2)
    else st2
  else st2

/-- The older main.rs bold/italic conversion (src/main.rs lines 709-740):
run the loop over the original characters, then force-close any open italic
(`*`) and bold (`**`) markup. -/
def mainIrcMarkup (computed : List Nat) : List Nat :=
  let st := computed.foldl mainMarkupStep (computed, false, false)
  let c1 := if st.2.2 = true then st.1 ++ [42] else st.1
  if st.2.1 = true then c1 ++ [42, 42] else c1

/-- Number of non-overlapping `**` marker occurrences in a flat text, scanned
left to right (balance of bold markup needs this count to be even). -/
def countBoldMarkers : List Nat → Nat
  | 42 :: 42 :: t => countBoldMarkers t + 1
  | _ :: t => countBoldMarkers t
  | [] => 0

/-- Remainder after the optional colour digits of
`\x03(?:\d{1,2}(?:,\d{1,2})?)?`: up to two digits, then optionally a comma
with one or two more digits (the comma is only consumed when a digit
follows). -/
def colorTail (t : List Nat) : List Nat :=
  match t with
  | d1 :: r1 =>
    if isDigitB d1 then
      let r2 :=
        match r1 with
        | d2 :: rr => if isDigitB d2 then rr else r1
        | [] => []
      match r2 with
      | 44 :: e1 :: r3 =>
        if isDigitB e1 then
          match r3 with
          | e2 :: rr2 => if isDigitB e2 then rr2 else r3
          | [] => []
        else 44 :: e1 :: r3
      | _ => r2
    else t
  | [] => []

/-- `CONTROL_CHAR_RE = \x1f|\x02|\x12|\x0f|\x16|\x03(?:\d{1,2}(?:,\d{1,2})?)?`
with empty replacement: strip the remaining control bytes. -/
def ctrlMatch : Matcher
  | c :: t =>
    if c = 31 ∨ c = 2 ∨ c = 18 ∨ c = 15 ∨ c = 22 then some ([], t)
    else if c = 3 then some ([], colorTail t)
    else none
  | [] => none

/-- The control-byte strip pass. -/
def stripCtrl (s : List Nat) : List Nat := scanReplace ctrlMatch s

/-- The whole markup stage: emissions rendered to characters, then control
bytes stripped (src/irc_discord.rs lines 321-348). -/
def ircMarkupOut (s : List Nat) : List Nat :=
  stripCtrl ((markupTokens s).map renderTok).flatten

/-- The Line→Rich transcoder `irc_to_discord_processing`
(src/irc_discord.rs lines 233-351): the literal/code early return for
whitespace-led mention-free lines, then leading-nick and `@` mention
resolution (threading the id cache), channel and emoji substitution, action
unwrap, and markup conversion.  Returns the text and the updated cache. -/
def irc_to_discord_processing (message : List Nat) (members : List (Nat × List Nat))
    (idCache : IdCache) (channels : List (Nat × List Nat))
    (emojis : List (Nat × List Nat)) : List Nat × IdCache :=
  if wsStart message = true ∧ hasMention message = false then
    (96 :: message ++ [96], idCache)
  else
    let p1 := pingNick1Pass members idCache message
    let p2 := mentionPass members true p1.2 p1.1
    let c3 := scanReplace (channelIrcMatch channels) p2.1
    let c4 := scanReplace (emojiIrcMatch emojis) c3
    let c5 := actionUnwrap c4
    (ircMarkupOut c5, p2.2)

/-! ### Delivery queue (claim C7, src/irc_discord.rs lines 353-406) -/

/-- `QueuedMessage`: the tagged union put on the delivery channel. -/
inductive QueuedMessage
  | webhook (avatarUrl : Option (List Nat)) (content : List Nat) (nickname : List Nat)
  | raw (channelId : Nat) (message : List Nat)
deriving DecidableEq

/-- The text a queued message would send. -/
def QueuedMessage.body : QueuedMessage → List Nat
  | QueuedMessage.webhook _ c _ => c
  | QueuedMessage.raw _ m => m

/-- The consumer loop `msg_task`: the network calls it performs, in queue
order; a message with empty content is skipped (`continue`) before any call.
The `Raw` arm of the source tests `content.is_empty()`, but `content` is a
binder of the `Webhook` arm and is not in scope there, so the source does not
compile as written; the evident intent `message.is_empty()` (mirroring the
`Webhook` arm) is modelled here. -/
def msg_task : List QueuedMessage → List QueuedMessage
  | [] => []
  | m :: rest => if m.body = [] then msg_task rest else m :: msg_task rest

/-! ### Roster mutation handlers (claim C9, src/discord_irc.rs lines 212-244) -/

/-- `Handler::guild_member_update`: find the member with the same user id
(`position(...).unwrap()` — a miss panics, modelled as `none`), remove it and
push the new entry at the end.  Roster entries are `(userId, payload)`. -/
def guild_member_update (roster : List (Nat × List Nat)) (new : Nat × List Nat) :
    Option (List (Nat × List Nat)) :=
  match roster.findIdx? (fun mem => mem.1 == new.1) with
  | some x => some (roster.eraseIdx x ++ [new])
  | none => none

/-- `Handler::guild_member_removal`: find the member with the given user id
(`position(...).unwrap()` — a miss panics, modelled as `none`) and remove it. -/
def guild_member_removal (roster : List (Nat × List Nat)) (userId : Nat) :
    Option (List (Nat × List Nat)) :=
  match roster.findIdx? (fun mem => mem.1 == userId) with
  | some x => some (roster.eraseIdx x)
  | none => none

/-- Plain ASCII letters, the text alphabet used around mention tokens in the
unresolved-mention theorem. -/
def LetterChar (c : Nat) : Prop := (65 ≤ c ∧ c ≤ 90) ∨ (97 ≤ c ∧ c ≤ 122)

instance (c : Nat) : Decidable (LetterChar c) := by
  unfold LetterChar
  infer_instance

/-! ### Theorems about the chunker (claims C1 and C10) -/

theorem takeBoundary_append (budget : Nat) (l : List Nat) :
    (takeBoundary budget l).1 ++ (takeBoundary budget l).2 = l := by
  induction l generalizing budget with
  | nil => simp [takeBoundary]
  | cons c rest ih =>
    simp only [takeBoundary]
    split
    · simpa using ih (budget - utf8Len c)
    · simp

theorem takeBoundary_byteLen (budget : Nat) (l : List Nat) :
    byteLen (takeBoundary budget l).1 ≤ budget := by
  induction l generalizing budget with
  | nil => simp [takeBoundary, byteLen]
  | cons c rest ih =>
    simp only [takeBoundary]
    split
    · rename_i h
      have h2 := ih (budget - utf8Len c)
      simp only [byteLen, List.map_cons, List.sum_cons] at h2 ⊢
      omega
    · simp [byteLen]

theorem utf8Len_pos (c : Nat) : 1 ≤ utf8Len c := by
  unfold utf8Len
  split_ifs <;> omega

theorem utf8Len_le_four (c : Nat) : utf8Len c ≤ 4 := by
  unfold utf8Len
  split_ifs <;> omega

theorem byteLen_pos {l : List Nat} (h : l ≠ []) : 1 ≤ byteLen l := by
  cases l with
  | nil => exact absurd rfl h
  | cons c rest =>
    have := utf8Len_pos c
    simp only [byteLen, List.map_cons, List.sum_cons]
    omega

theorem takeBoundary_ne_nil {budget : Nat} {l : List Nat}
    (hl : l ≠ []) (hb : 4 ≤ budget) : (takeBoundary budget l).1 ≠ [] := by
  cases l with
  | nil => exact absurd rfl hl
  | cons c rest =>
    have h4 := utf8Len_le_four c
    simp only [takeBoundary, if_pos (by omega : utf8Len c ≤ budget)]
    simp

theorem byteLen_append (a b : List Nat) :
    byteLen (a ++ b) = byteLen a + byteLen b := by
  simp [byteLen]

/-- The `next` equation in the "short remainder" case. -/
theorem StrChunks.next_eq_small {v : List Nat} {b : Nat}
    (hne : v ≠ []) (h : byteLen v < b) :
    StrChunks.next ⟨v, b⟩ = some (v, ⟨[], b⟩) := by
  unfold StrChunks.next
  rw [if_neg hne, if_pos h]

/-- The `next` equation in the "boundary search" case. -/
theorem StrChunks.next_eq_big {v : List Nat} {b : Nat}
    (hne : v ≠ []) (h : ¬ byteLen v < b) :
    StrChunks.next ⟨v, b⟩
      = some ((takeBoundary b v).1, ⟨(takeBoundary b v).2, b⟩) := by
  unfold StrChunks.next
  rw [if_neg hne, if_neg h]

/-- Any `next` step on a nonempty remainder with budget ≥ 4 yields a nonempty
chunk of at most `b` bytes and strictly consumes input. -/
theorem StrChunks.next_spec {v : List Nat} {b : Nat} (hne : v ≠ []) (hb : 4 ≤ b) :
    ∃ c v', StrChunks.next ⟨v, b⟩ = some (c, ⟨v', b⟩) ∧ c ≠ [] ∧ c ++ v' = v ∧
      v'.length < v.length ∧ byteLen c ≤ b := by
  by_cases hlt : byteLen v < b
  · refine ⟨v, [], StrChunks.next_eq_small hne hlt, hne, by simp, ?_, by omega⟩
    simpa using List.length_pos.mpr hne
  · refine ⟨(takeBoundary b v).1, (takeBoundary b v).2, StrChunks.next_eq_big hne hlt,
      takeBoundary_ne_nil hne hb, takeBoundary_append b v, ?_, takeBoundary_byteLen b v⟩
    have hsum : (takeBoundary b v).1.length + (takeBoundary b v).2.length = v.length := by
      rw [← List.length_append, takeBoundary_append b v]
    have hpos : 0 < (takeBoundary b v).1.length :=
      List.length_pos.mpr (takeBoundary_ne_nil hne hb)
    omega

/-- `next` on an empty remainder ends the iteration. -/
theorem StrChunks.next_nil {b : Nat} : StrChunks.next ⟨[], b⟩ = none := by
  unfold StrChunks.next
  simp

/-- With budget ≥ 4, any two fuel amounts at least the code-point count give
the same chunk list: the iteration is finished by then. -/
theorem chunksFuel_congr {b : Nat} (hb : 4 ≤ b) :
    ∀ f g v, v.length ≤ f → v.length ≤ g →
      chunksFuel f ⟨v, b⟩ = chunksFuel g ⟨v, b⟩ := by
  intro f
  induction f with
  | zero =>
    intro g v hf hg
    have hv : v = [] := List.length_eq_zero.mp (Nat.le_zero.mp hf)
    subst hv
    cases g with
    | zero => rfl
    | succ g => simp [chunksFuel, StrChunks.next_nil]
  | succ f ih =>
    intro g v hf hg
    by_cases hne : v = []
    · subst hne
      cases g with
      | zero => simp [chunksFuel, StrChunks.next_nil]
      | succ g => simp [chunksFuel, StrChunks.next_nil]
    · obtain ⟨c, v', hnext, hcne, happ, hlt, hcb⟩ := StrChunks.next_spec hne hb
      have hvpos : 0 < v.length := List.length_pos.mpr hne
      cases g with
      | zero => omega
      | succ g =>
        simp only [chunksFuel, hnext]
        congr 1
        exact ih g v' (by omega) (by omega)

/-- Fuel beyond the code-point count changes nothing (budget ≥ 4). -/
theorem chunksFuel_stable {b : Nat} (hb : 4 ≤ b) (f : Nat) (v : List Nat)
    (hf : v.length ≤ f) : chunksFuel f ⟨v, b⟩ = StrChunks.toList ⟨v, b⟩ :=
  chunksFuel_congr hb f v.length v hf le_rfl

/-- Claim C1, counterexample.  With byte budget 1 and the single two-byte code
point U+00E9 ("é"), the boundary search bottoms out at offset 0: the iterator
yields an empty chunk and leaves its state unchanged, so it never terminates
and no concatenation of yielded chunks recovers the line. -/
theorem C1_budget_one_refutes :
    StrChunks.next ⟨[233], 1⟩ = some ([], ⟨[233], 1⟩) ∧
      (StrChunks.toList ⟨[233], 1⟩).foldr (· ++ ·) [] ≠ [233] ∧
      chunksFuel 5 ⟨[233], 1⟩ = [[], [], [], [], []] := by
  refine ⟨by decide, by decide, by decide⟩

/-- Claim C1, amended: for byte budgets `b ≥ 4` (at least the widest UTF-8
code point) the chunker yields chunks of byte length ≤ b that concatenate
back to the original line, and an empty line yields zero chunks.  Chunks are
lists of whole code points, so no chunk splits a code point. -/
theorem C1_chunker_amended (b : Nat) (v : List Nat) (hb : 4 ≤ b) :
    (StrChunks.toList ⟨v, b⟩).foldr (· ++ ·) [] = v ∧
      (∀ c ∈ StrChunks.toList ⟨v, b⟩, byteLen c ≤ b) ∧
      (v = [] → StrChunks.toList ⟨v, b⟩ = []) := by
  have main : ∀ f v', v'.length ≤ f →
      (chunksFuel f ⟨v', b⟩).foldr (· ++ ·) [] = v' ∧
        (∀ c ∈ chunksFuel f ⟨v', b⟩, byteLen c ≤ b) := by
    intro f
    induction f with
    | zero =>
      intro v' hf
      have : v' = [] := List.length_eq_zero.mp (Nat.le_zero.mp hf)
      subst this
      exact ⟨rfl, by simp [chunksFuel]⟩
    | succ f ih =>
      intro v' hf
      by_cases hne : v' = []
      · subst hne
        exact ⟨by simp [chunksFuel, StrChunks.next_nil],
          by simp [chunksFuel, StrChunks.next_nil]⟩
      · obtain ⟨c, v'', hnext, hcne, happ, hlt, hcb⟩ := StrChunks.next_spec hne hb
        have hv''f : v''.length ≤ f := by omega
        obtain ⟨ihj, ihb⟩ := ih v'' hv''f
        have hstep : chunksFuel (f + 1) ⟨v', b⟩ = c :: chunksFuel f ⟨v'', b⟩ := by
          simp [chunksFuel, hnext]
        constructor
        · rw [hstep]
          simp only [List.foldr_cons, ihj]
          exact happ
        · rw [hstep]
          intro ch hch
          rcases List.mem_cons.mp hch with h | h
          · subst h
            exact hcb
          · exact ihb ch h
  obtain ⟨h1, h2⟩ := main v.length v le_rfl
  exact ⟨h1, h2, fun hnil => by subst hnil; rfl⟩

/-- Witness for the amended chunker claim at budget 5 on a concrete line with
a two-byte code point. -/
theorem C1_chunker_amended_witness :
    ((StrChunks.toList ⟨[104, 233, 108, 108, 111, 33], 5⟩).foldr (· ++ ·) []
        = [104, 233, 108, 108, 111, 33] ∧
      (∀ c ∈ StrChunks.toList ⟨[104, 233, 108, 108, 111, 33], 5⟩, byteLen c ≤ 5) ∧
      ([104, 233, 108, 108, 111, 33] = ([] : List Nat) →
        StrChunks.toList ⟨[104, 233, 108, 108, 111, 33], 5⟩ = [])) :=
  C1_chunker_amended 5 [104, 233, 108, 108, 111, 33] (by decide)

/-- Claim C10: with budget ≥ 4 the iterator terminates (fuel beyond the
code-point count changes nothing), every yielded chunk is nonempty, and every
step strictly consumes input (at least one byte). -/
theorem C10_chunker_termination (b : Nat) (v : List Nat) (f : Nat)
    (hb : 4 ≤ b) (hf : v.length ≤ f) :
    chunksFuel f ⟨v, b⟩ = StrChunks.toList ⟨v, b⟩ ∧
      (∀ c ∈ StrChunks.toList ⟨v, b⟩, c ≠ []) ∧
      (∀ (s : StrChunks) (c : List Nat) (s' : StrChunks), s.size = b →
        s.next = some (c, s') → byteLen s'.v + 1 ≤ byteLen s.v) := by
  refine ⟨chunksFuel_stable hb f v hf, ?_, ?_⟩
  · have main : ∀ g v', v'.length ≤ g → ∀ c ∈ chunksFuel g ⟨v', b⟩, c ≠ [] := by
      intro g
      induction g with
      | zero => intro v' _ c hc; simp [chunksFuel] at hc
      | succ g ih =>
        intro v' hg c hc
        by_cases hne : v' = []
        · subst hne
          simp [chunksFuel, StrChunks.next_nil] at hc
        · obtain ⟨c0, v'', hnext, hc0ne, happ, hlt, _⟩ := StrChunks.next_spec hne hb
          simp only [chunksFuel, hnext] at hc
          rcases List.mem_cons.mp hc with h | h
          · subst h; exact hc0ne
          · exact ih v'' (by omega) c h
    exact main v.length v le_rfl
  · intro s c s' hsz h
    obtain ⟨v0, b0⟩ := s
    obtain ⟨rfl⟩ : b0 = b := hsz
    have hne : v0 ≠ [] := by
      rintro rfl
      rw [StrChunks.next_nil] at h
      exact Option.noConfusion h
    obtain ⟨c0, v', hnext, hc0ne, happ, _, _⟩ := StrChunks.next_spec hne hb
    rw [hnext] at h
    obtain ⟨rfl, rfl⟩ : c0 = c ∧ (⟨v', b⟩ : StrChunks) = s' := by
      simpa using h
    have hsum : byteLen c0 + byteLen v' = byteLen v0 := by
      rw [← byteLen_append, happ]
    have := byteLen_pos hc0ne
    simp only
    omega

/-- Witness for the chunker termination claim at a concrete budget and line. -/
theorem C10_chunker_termination_witness :
    (chunksFuel 9 ⟨[97, 98, 99], 4⟩ = StrChunks.toList ⟨[97, 98, 99], 4⟩ ∧
      (∀ c ∈ StrChunks.toList ⟨[97, 98, 99], 4⟩, c ≠ []) ∧
      (∀ (s : StrChunks) (c : List Nat) (s' : StrChunks), s.size = 4 →
        s.next = some (c, s') → byteLen s'.v + 1 ≤ byteLen s.v)) :=
  C10_chunker_termination 4 [97, 98, 99] 9 (by decide) (by decide)

/-! ### Generic facts about the replace-all scanner -/

theorem dropWhile_length_le (p : Nat → Bool) :
    ∀ l : List Nat, (l.dropWhile p).length ≤ l.length := by
  intro l
  induction l with
  | nil => simp
  | cons c t ih =>
    by_cases hc : p c
    · rw [List.dropWhile_cons_of_pos hc]
      simp only [List.length_cons]
      omega
    · rw [List.dropWhile_cons_of_neg hc]

theorem scanReplaceF_congr {m : Matcher} (hm : Consuming m) :
    ∀ f g s, s.length ≤ f → s.length ≤ g → scanReplaceF m f s = scanReplaceF m g s := by
  intro f
  induction f with
  | zero =>
    intro g s hf hg
    have : s = [] := List.length_eq_zero.mp (Nat.le_zero.mp hf)
    subst this
    cases g <;> rfl
  | succ f ih =>
    intro g s hf hg
    cases s with
    | nil => cases g <;> rfl
    | cons c rest =>
      cases g with
      | zero => simp at hg
      | succ g =>
        cases hmc : m (c :: rest) with
        | none =>
          simp only [scanReplaceF, hmc]
          rw [ih g rest (by simpa using hf) (by simpa using hg)]
        | some pa =>
          obtain ⟨rep, after⟩ := pa
          have hlen := hm _ _ _ hmc
          simp only [scanReplaceF, hmc]
          rw [ih g after (by simp at hf hlen ⊢; omega) (by simp at hg hlen ⊢; omega)]

theorem scan_cons_none {m : Matcher} {c : Nat} {rest : List Nat}
    (h : m (c :: rest) = none) :
    scanReplace m (c :: rest) = c :: scanReplace m rest := by
  simp only [scanReplace, List.length_cons, scanReplaceF, h]

theorem scan_cons_some {m : Matcher} (hm : Consuming m) {c : Nat} {rest rep after : List Nat}
    (h : m (c :: rest) = some (rep, after)) :
    scanReplace m (c :: rest) = rep ++ scanReplace m after := by
  have hlen := hm _ _ _ h
  simp only [scanReplace, List.length_cons, scanReplaceF, h]
  congr 1
  exact scanReplaceF_congr hm rest.length after.length after
    (by simp at hlen; omega) le_rfl

theorem noMatch_nil {m : Matcher} : NoMatch m [] := trivial

theorem noMatch_cons {m : Matcher} {c : Nat} {t : List Nat}
    (h1 : m (c :: t) = none) (h2 : NoMatch m t) : NoMatch m (c :: t) :=
  ⟨h1, h2⟩

theorem scan_eq_self {m : Matcher} : ∀ {s : List Nat}, NoMatch m s → scanReplace m s = s
  | [], _ => rfl
  | _ :: _, h => by
    obtain ⟨h1, h2⟩ := h
    rw [scan_cons_none h1, scan_eq_self h2]

theorem noMatch_append {m : Matcher} {A s : List Nat}
    (hA : ∀ a ∈ A, ∀ t, m (a :: t) = none) (hs : NoMatch m s) : NoMatch m (A ++ s) := by
  induction A with
  | nil => simpa using hs
  | cons a A ih =>
    exact noMatch_cons (hA a (by simp) _) (ih (fun x hx t => hA x (by simp [hx]) t))

theorem noMatch_of_all {m : Matcher} {s : List Nat}
    (h : ∀ a ∈ s, ∀ t, m (a :: t) = none) : NoMatch m s := by
  have h0 : NoMatch m ([] : List Nat) := noMatch_nil
  have := noMatch_append h h0
  simpa using this

theorem scan_append {m : Matcher} {A s : List Nat}
    (hA : ∀ a ∈ A, ∀ t, m (a :: t) = none) :
    scanReplace m (A ++ s) = A ++ scanReplace m s := by
  induction A with
  | nil => rfl
  | cons a A ih =>
    rw [List.cons_append, scan_cons_none (hA a (by simp) _),
      ih (fun x hx t => hA x (by simp [hx]) t), List.cons_append]

/-! ### Facts about the individual matchers -/

theorem takeDigits_exact {ds rest : List Nat} {r : Nat}
    (hdig : ∀ d ∈ ds, isDigitB d = true) (hr : isDigitB r = false) :
    takeDigits (ds ++ r :: rest) = (ds, r :: rest) := by
  unfold takeDigits
  rw [List.takeWhile_append_of_pos hdig, List.dropWhile_append_of_pos hdig,
    List.takeWhile_cons_of_neg (by simp [hr]), List.dropWhile_cons_of_neg (by simp [hr])]
  simp

theorem tokenTailLt {t : List Nat} {r : Nat} {rest' : List Nat}
    (hd2 : (takeDigits t).2 = r :: rest') : rest'.length < t.length := by
  have h1 : ((takeDigits t).2).length ≤ t.length := dropWhile_length_le isDigitB t
  rw [hd2] at h1
  simp at h1
  omega

theorem urlMatch_ne {a : Nat} (h : a ≠ 60) : ∀ t, urlMatch (a :: t) = none := by
  intro t
  simp only [urlMatch]
  rw [if_neg h]

theorem urlMatch_at (t : List Nat) : urlMatch (60 :: 64 :: t) = none := by
  simp [urlMatch, stripHttp, startsList]

theorem ping1Match_ne (members : List (Nat × List Nat)) {a : Nat} (h : a ≠ 60) :
    ∀ t, ping1Match members (a :: t) = none := by
  intro t
  match t with
  | [] => rfl
  | b :: t' =>
    simp only [ping1Match]
    rw [if_neg (fun hc => h hc.1)]

theorem ping2Match_ne (members : List (Nat × List Nat)) {a : Nat} (h : a ≠ 60) :
    ∀ t, ping2Match members (a :: t) = none := by
  intro t
  match t with
  | [] => rfl
  | [b] => rfl
  | b :: c :: t' =>
    simp only [ping2Match]
    rw [if_neg (fun hc => h hc.1)]

theorem ping2Match_at (members : List (Nat × List Nat)) {d : Nat} (h : d ≠ 33) (t : List Nat) :
    ping2Match members (60 :: 64 :: d :: t) = none := by
  simp only [ping2Match]
  rw [if_neg (fun hc => h hc.2.2)]

theorem emojiMatchD_ne {a : Nat} (h : a ≠ 60) : ∀ t, emojiMatchD (a :: t) = none := by
  intro t
  match t with
  | [] => rfl
  | b :: t' =>
    simp only [emojiMatchD]
    rw [if_neg (fun hc => h hc.1)]

theorem emojiMatchD_at (t : List Nat) : emojiMatchD (60 :: 64 :: t) = none := by
  simp only [emojiMatchD]
  rw [if_neg (fun hc => absurd hc.2 (by decide))]

theorem channelMatchD_ne (chanName : Nat → Option (List Nat)) {a : Nat} (h : a ≠ 60) :
    ∀ t, channelMatchD chanName (a :: t) = none := by
  intro t
  match t with
  | [] => rfl
  | b :: t' =>
    simp only [channelMatchD]
    rw [if_neg (fun hc => h hc.1)]

theorem channelMatchD_at (chanName : Nat → Option (List Nat)) (t : List Nat) :
    channelMatchD chanName (60 :: 64 :: t) = none := by
  simp only [channelMatchD]
  rw [if_neg (fun hc => absurd hc.2 (by decide))]

theorem roleMatch_ne (roleName : Nat → Option (List Nat)) {a : Nat} (h : a ≠ 60) :
    ∀ t, roleMatch roleName (a :: t) = none := by
  intro t
  match t with
  | [] => rfl
  | [b] => rfl
  | b :: c :: t' =>
    simp only [roleMatch]
    rw [if_neg (fun hc => h hc.1)]

theorem roleMatch_at (roleName : Nat → Option (List Nat)) {d : Nat} (h : d ≠ 38)
    (t : List Nat) : roleMatch roleName (60 :: 64 :: d :: t) = none := by
  simp only [roleMatch]
  rw [if_neg (fun hc => h hc.2.2)]

theorem bracketMatch_ne {a : Nat} (h : a ≠ 60) : ∀ t, bracketMatch (a :: t) = none := by
  intro t
  match t with
  | [] => rfl
  | b :: t' =>
    simp only [bracketMatch]
    rw [if_neg (fun hc => h hc.1)]

theorem restoreMatch_ne {a : Nat} (h : a ≠ 123) : ∀ t, restoreMatch (a :: t) = none := by
  intro t
  match t with
  | [] => rfl
  | b :: t' =>
    simp only [restoreMatch]
    rw [if_neg (fun hc => h hc.1)]

theorem ping1Match_fire (members : List (Nat × List Nat)) {ds B : List Nat}
    (hne : ds ≠ []) (hdig : ∀ d ∈ ds, isDigitB d = true)
    (hmem : members.find? (fun mem => mem.1 == decVal ds) = none) :
    ping1Match members (60 :: 64 :: (ds ++ 62 :: B)) = some (60 :: 64 :: ds ++ [62], B) := by
  have htd : takeDigits (ds ++ 62 :: B) = (ds, 62 :: B) := takeDigits_exact hdig (by decide)
  simp [ping1Match, htd, hne, hmem]

theorem bracketMatch_fire {ds B : List Nat}
    (hne : ds ≠ []) (hdig : ∀ d ∈ ds, isDigitB d = true) :
    bracketMatch (60 :: 64 :: (ds ++ 62 :: B)) = some (123 :: 64 :: ds ++ [125], B) := by
  have htd : takeDigits (ds ++ 62 :: B) = (ds, 62 :: B) := takeDigits_exact hdig (by decide)
  simp [bracketMatch, htd, hne]

theorem restoreMatch_fire {ds B : List Nat}
    (hne : ds ≠ []) (hdig : ∀ d ∈ ds, isDigitB d = true) :
    restoreMatch (123 :: 64 :: (ds ++ 125 :: B)) = some (60 :: 64 :: ds ++ [62], B) := by
  have htd : takeDigits (ds ++ 125 :: B) = (ds, 125 :: B) := takeDigits_exact hdig (by decide)
  simp [restoreMatch, htd, hne]

theorem ping1Consuming (members : List (Nat × List Nat)) : Consuming (ping1Match members) := by
  intro s rep after h
  match s with
  | [] => simp [ping1Match] at h
  | [c] => simp [ping1Match] at h
  | c1 :: c2 :: t =>
    simp only [ping1Match] at h
    split at h
    · split at h
      · exact absurd h (by simp)
      · cases hd2 : (takeDigits t).2 with
        | nil => rw [hd2] at h; exact absurd h (by simp)
        | cons r rest' =>
          rw [hd2] at h
          dsimp only at h
          by_cases hr : r = 62
          · rw [if_pos hr] at h
            have hlt := tokenTailLt hd2
            cases hf : members.find? (fun mem => mem.1 == decVal (takeDigits t).1) with
            | some mem =>
              rw [hf] at h
              obtain ⟨-, rfl⟩ : 64 :: mem.2 = rep ∧ rest' = after := by simpa using h
              simp only [List.length_cons]
              omega
            | none =>
              rw [hf] at h
              obtain ⟨-, rfl⟩ : 60 :: 64 :: (takeDigits t).1 ++ [62] = rep ∧ rest' = after := by
                simpa using h
              simp only [List.length_cons]
              omega
          · rw [if_neg hr] at h
            exact absurd h (by simp)
    · exact absurd h (by simp)

theorem bracketConsuming : Consuming bracketMatch := by
  intro s rep after h
  match s with
  | [] => simp [bracketMatch] at h
  | [c] => simp [bracketMatch] at h
  | c1 :: c2 :: t =>
    simp only [bracketMatch] at h
    split at h
    · split at h
      · exact absurd h (by simp)
      · cases hd2 : (takeDigits t).2 with
        | nil => rw [hd2] at h; exact absurd h (by simp)
        | cons r rest' =>
          rw [hd2] at h
          dsimp only at h
          by_cases hr : r = 62
          · rw [if_pos hr] at h
            have hlt := tokenTailLt hd2
            obtain ⟨-, rfl⟩ : 123 :: 64 :: (takeDigits t).1 ++ [125] = rep ∧ rest' = after := by
              simpa using h
            simp only [List.length_cons]
            omega
          · rw [if_neg hr] at h
            exact absurd h (by simp)
    · exact absurd h (by simp)

theorem restoreConsuming : Consuming restoreMatch := by
  intro s rep after h
  match s with
  | [] => simp [restoreMatch] at h
  | [c] => simp [restoreMatch] at h
  | c1 :: c2 :: t =>
    simp only [restoreMatch] at h
    split at h
    · split at h
      · exact absurd h (by simp)
      · cases hd2 : (takeDigits t).2 with
        | nil => rw [hd2] at h; exact absurd h (by simp)
        | cons r rest' =>
          rw [hd2] at h
          dsimp only at h
          by_cases hr : r = 125
          · rw [if_pos hr] at h
            have hlt := tokenTailLt hd2
            obtain ⟨-, rfl⟩ : 60 :: 64 :: (takeDigits t).1 ++ [62] = rep ∧ rest' = after := by
              simpa using h
            simp only [List.length_cons]
            omega
          · rw [if_neg hr] at h
            exact absurd h (by simp)
    · exact absurd h (by simp)

/-! ### Claim C5: unresolved mentions survive the Rich→Line pipeline -/

/-- Claim C5: a user-mention token `<@id>` whose id matches no roster member
appears byte-for-byte unchanged in the final transcoded output line: the
`MemberReplacer` emits the unresolved token unchanged, the bracket-escape
pass turns it into the reversible `{@id}` form, and the final pass restores
`<@id>`.  Proved for a mention embedded in plain letter text (the markdown
re-emission stage, `mdPlain`, is spec-modelled for such plain lines and
appends the paragraph line break). -/
theorem C5_unresolved_mention (A B ds : List Nat) (members : List (Nat × List Nat))
    (chanName roleName : Nat → Option (List Nat))
    (hA : ∀ a ∈ A, LetterChar a) (hB : ∀ b ∈ B, LetterChar b)
    (hne : ds ≠ []) (hdig : ∀ d ∈ ds, isDigitB d = true)
    (hid : decVal ds < 2 ^ 64)
    (hmem : ∀ mem ∈ members, mem.1 ≠ decVal ds) :
    discord_to_irc_processing (A ++ 60 :: 64 :: (ds ++ 62 :: B)) members chanName roleName
      = A ++ 60 :: 64 :: (ds ++ 62 :: (B ++ [10])) := by
  obtain ⟨d, ds', rfl⟩ : ∃ d ds', ds = d :: ds' := by
    cases ds with
    | nil => exact absurd rfl hne
    | cons d ds' => exact ⟨d, ds', rfl⟩
  have hdnum : 48 ≤ d ∧ d ≤ 57 := by
    have := hdig d (by simp)
    simpa [isDigitB] using this
  have hAprop : ∀ a ∈ A, a ≠ 60 ∧ a ≠ 123 := by
    intro a ha
    rcases hA a ha with h | h <;> constructor <;> omega
  have hBprop : ∀ b ∈ B, b ≠ 60 ∧ b ≠ 123 := by
    intro b hb
    rcases hB b hb with h | h <;> constructor <;> omega
  have htail : ∀ a ∈ (64 :: ((d :: ds') ++ 62 :: B) : List Nat), a ≠ 60 := by
    intro a ha
    rcases List.mem_cons.mp ha with rfl | ha
    · decide
    rcases List.mem_append.mp ha with ha | ha
    · have := hdig a ha
      simp [isDigitB] at this
      omega
    rcases List.mem_cons.mp ha with rfl | ha
    · decide
    · exact (hBprop a ha).1
  have hB10 : ∀ a ∈ B ++ [10], a ≠ 123 := by
    intro a ha
    rcases List.mem_append.mp ha with h | h
    · exact (hBprop a h).2
    · simp at h
      omega
  have hfind : members.find? (fun mem => mem.1 == decVal (d :: ds')) = none :=
    List.find?_eq_none.mpr (fun x hx => by simpa using hmem x hx)
  have hurl : scanReplace urlMatch (A ++ 60 :: 64 :: ((d :: ds') ++ 62 :: B))
      = A ++ 60 :: 64 :: ((d :: ds') ++ 62 :: B) :=
    scan_eq_self (noMatch_append (fun a ha t => urlMatch_ne (hAprop a ha).1 t)
      (noMatch_cons (urlMatch_at _)
        (noMatch_of_all (fun a ha t => urlMatch_ne (htail a ha) t))))
  have hping1 : scanReplace (ping1Match members) (A ++ 60 :: 64 :: ((d :: ds') ++ 62 :: B))
      = A ++ 60 :: 64 :: ((d :: ds') ++ 62 :: B) := by
    rw [scan_append (fun a ha t => ping1Match_ne members (hAprop a ha).1 t),
      scan_cons_some (ping1Consuming members) (ping1Match_fire members hne hdig hfind),
      scan_eq_self (noMatch_of_all (fun b hb t => ping1Match_ne members (hBprop b hb).1 t))]
    simp
  have hping2 : scanReplace (ping2Match members) (A ++ 60 :: 64 :: ((d :: ds') ++ 62 :: B))
      = A ++ 60 :: 64 :: ((d :: ds') ++ 62 :: B) :=
    scan_eq_self (noMatch_append (fun a ha t => ping2Match_ne members (hAprop a ha).1 t)
      (noMatch_cons (ping2Match_at members (by omega) (ds' ++ 62 :: B))
        (noMatch_of_all (fun a ha t => ping2Match_ne members (htail a ha) t))))
  have hemoji : scanReplace emojiMatchD (A ++ 60 :: 64 :: ((d :: ds') ++ 62 :: B))
      = A ++ 60 :: 64 :: ((d :: ds') ++ 62 :: B) :=
    scan_eq_self (noMatch_append (fun a ha t => emojiMatchD_ne (hAprop a ha).1 t)
      (noMatch_cons (emojiMatchD_at _)
        (noMatch_of_all (fun a ha t => emojiMatchD_ne (htail a ha) t))))
  have hchan : scanReplace (channelMatchD chanName) (A ++ 60 :: 64 :: ((d :: ds') ++ 62 :: B))
      = A ++ 60 :: 64 :: ((d :: ds') ++ 62 :: B) :=
    scan_eq_self (noMatch_append (fun a ha t => channelMatchD_ne chanName (hAprop a ha).1 t)
      (noMatch_cons (channelMatchD_at chanName _)
        (noMatch_of_all (fun a ha t => channelMatchD_ne chanName (htail a ha) t))))
  have hrole : scanReplace (roleMatch roleName) (A ++ 60 :: 64 :: ((d :: ds') ++ 62 :: B))
      = A ++ 60 :: 64 :: ((d :: ds') ++ 62 :: B) :=
    scan_eq_self (noMatch_append (fun a ha t => roleMatch_ne roleName (hAprop a ha).1 t)
      (noMatch_cons (roleMatch_at roleName (by omega) (ds' ++ 62 :: B))
        (noMatch_of_all (fun a ha t => roleMatch_ne roleName (htail a ha) t))))
  have hbr : scanReplace bracketMatch (A ++ 60 :: 64 :: ((d :: ds') ++ 62 :: B))
      = A ++ 123 :: 64 :: ((d :: ds') ++ 125 :: B) := by
    rw [scan_append (fun a ha t => bracketMatch_ne (hAprop a ha).1 t),
      scan_cons_some bracketConsuming (bracketMatch_fire hne hdig),
      scan_eq_self (noMatch_of_all (fun b hb t => bracketMatch_ne (hBprop b hb).1 t))]
    simp
  have hre : scanReplace restoreMatch (A ++ 123 :: 64 :: ((d :: ds') ++ 125 :: (B ++ [10])))
      = A ++ 60 :: 64 :: ((d :: ds') ++ 62 :: (B ++ [10])) := by
    rw [scan_append (fun a ha t => restoreMatch_ne (hAprop a ha).2 t),
      scan_cons_some restoreConsuming (restoreMatch_fire hne hdig),
      scan_eq_self (noMatch_of_all (fun b hb t => restoreMatch_ne (hB10 b hb) t))]
    simp
  have hshape : (A ++ 123 :: 64 :: ((d :: ds') ++ 125 :: B)) ++ [10]
      = A ++ 123 :: 64 :: ((d :: ds') ++ 125 :: (B ++ [10])) := by
    simp
  simp only [discord_to_irc_processing]
  rw [hurl, hping1, hping2, hemoji, hchan, hrole, hbr]
  simp only [mdPlain]
  rw [hshape, hre]

/-- Witness: `hi<@999>ok` with an empty roster transcodes with the `<@999>`
token intact. -/
theorem C5_unresolved_mention_witness :
    discord_to_irc_processing
        ([104, 105] ++ 60 :: 64 :: ([57, 57, 57] ++ 62 :: [111, 107]))
        [] (fun _ => none) (fun _ => none)
      = [104, 105] ++ 60 :: 64 :: ([57, 57, 57] ++ 62 :: ([111, 107] ++ [10])) :=
  C5_unresolved_mention [104, 105] [111, 107] [57, 57, 57] []
    (fun _ => none) (fun _ => none)
    (by decide) (by decide) (by decide) (by decide) (by decide) (by decide)

/-! ### Claim C4: author badge colour index -/

/-- Claim C4, counterexample: the inline main.rs formatter casts the first
character to `u8`, so for the one-character name U+0100 (2 UTF-8 bytes) it
computes `(0 + 2) % 12 = 2`, while the claimed formula
`(codepoint + byteLength) % 12` gives `(256 + 2) % 12 = 6`. -/
theorem C4_u8_cast_refutes :
    colourIndexMain [256] = some 2 ∧ (256 + byteLen [256]) % 12 = 6 ∧ (2 : Nat) ≠ 6 := by
  refine ⟨by decide, by decide, by decide⟩

/-- Claim C4, amended: for names of at least two characters, `create_prefix`
computes exactly `(codepoint(firstChar) + byteLength(name)) % 12`, which lies
in `[0,12)`; the older inline main.rs formatter instead computes
`((codepoint mod 256) + byteLength) % 12` (equal only when the first
character is ASCII), also in `[0,12)`.  Both are pure functions of the name,
hence deterministic. -/
theorem C4_colour_index_amended (c1 c2 c : Nat) (rest rest2 : List Nat) :
    colour_index (c1 :: c2 :: rest) = some ((c1 + byteLen (c1 :: c2 :: rest)) % 12) ∧
      (c1 + byteLen (c1 :: c2 :: rest)) % 12 < 12 ∧
      colourIndexMain (c :: rest2) = some ((c % 256 + byteLen (c :: rest2)) % 12) ∧
      (c % 256 + byteLen (c :: rest2)) % 12 < 12 :=
  ⟨rfl, Nat.mod_lt _ (by omega), rfl, Nat.mod_lt _ (by omega)⟩

/-! ### Claim C2: reply truncation -/

/-- Claim C2, counterexample: with a computed reply budget of 10 bytes (e.g.
a configured `RefContentLimit` of 10) and an 11-character ASCII reply, both
truncation paths produce the 10-character cut plus the three-byte `...` — 13
bytes, exceeding the computed reply budget. -/
theorem C2_ellipsis_overflow_refutes :
    ¬ byteLen (truncate_ellipse 10 (List.replicate 11 97)) ≤ 10 ∧
      replyToSendMain 10 (List.replicate 11 97)
        = some (List.replicate 10 97 ++ [46, 46, 46]) ∧
      ¬ byteLen (List.replicate 10 97 ++ [46, 46, 46]) ≤ 10 := by
  refine ⟨by decide, by decide, by decide⟩

/-- Claim C2, amended: an over-budget ASCII reply is truncated to the budget
and suffixed with the ellipsis; the truncated text alone fits the budget, and
the sent text exceeds the computed reply budget by exactly the 3 ellipsis
bytes (never more, for ASCII); the byte-slice path of src/main.rs produces
the same text. -/
theorem C2_reply_truncation_amended (limit : Nat) (s : List Nat)
    (hpos : 0 < limit) (hascii : ∀ c ∈ s, c < 128) (hover : limit < s.length) :
    truncate_ellipse limit s = s.take limit ++ [46, 46, 46] ∧
      byteLen (truncate_ellipse limit s) = limit + 3 ∧
      replyToSendMain limit s = some (s.take limit ++ [46, 46, 46]) := by
  have hblen : ∀ l : List Nat, (∀ c ∈ l, c < 128) → byteLen l = l.length := by
    intro l
    induction l with
    | nil => intro _; rfl
    | cons c t ih =>
      intro hl
      have hc : utf8Len c = 1 := by
        unfold utf8Len
        rw [if_pos (hl c (by simp))]
      have ht := ih (fun x hx => hl x (by simp [hx]))
      simp only [byteLen, List.map_cons, List.sum_cons, List.length_cons] at ht ⊢
      omega
  have hslice : ∀ (n : Nat), ∀ l : List Nat, (∀ c ∈ l, c < 128) → n ≤ l.length →
      byteSlice n l = some (l.take n) := by
    intro n
    induction n with
    | zero => intro l _ _; simp [byteSlice]
    | succ n ih =>
      intro l hl hn
      cases l with
      | nil => simp at hn
      | cons c t =>
        have hc : utf8Len c = 1 := by
          unfold utf8Len
          rw [if_pos (hl c (by simp))]
        simp only [byteSlice, hc]
        rw [if_pos (by omega), Nat.add_sub_cancel,
          ih t (fun x hx => hl x (by simp [hx])) (by simpa using hn)]
        simp
  have heq1 : truncate_ellipse limit s = s.take limit ++ [46, 46, 46] := by
    unfold truncate_ellipse
    rw [if_neg (by omega), if_neg (by omega)]
  have htakelen : (s.take limit).length = limit := by
    rw [List.length_take]
    omega
  have htake_ascii : ∀ c ∈ s.take limit, c < 128 :=
    fun c hc => hascii c (List.take_subset limit s hc)
  refine ⟨heq1, ?_, ?_⟩
  · rw [heq1, byteLen_append, hblen _ htake_ascii, htakelen]
    have h3 : byteLen [46, 46, 46] = 3 := rfl
    omega
  · unfold replyToSendMain
    rw [if_pos (by rw [hblen s hascii]; omega), hslice limit s hascii (by omega)]
    rfl

/-- Witness for the amended reply-truncation claim at budget 1 on `ab`. -/
theorem C2_reply_truncation_amended_witness :
    truncate_ellipse 1 [97, 98] = [97, 98].take 1 ++ [46, 46, 46] ∧
      byteLen (truncate_ellipse 1 [97, 98]) = 1 + 3 ∧
      replyToSendMain 1 [97, 98] = some ([97, 98].take 1 ++ [46, 46, 46]) :=
  C2_reply_truncation_amended 1 [97, 98] (by decide) (by decide) (by decide)

/-! ### Claim C3: bold/italic toggle parity -/

theorem countBold_append (a b : List MTok) :
    countBold (a ++ b) = countBold a + countBold b := by
  induction a with
  | nil => simp [countBold]
  | cons x t ih =>
    cases x <;> simp [countBold, ih] <;> omega

theorem countItal_append (a b : List MTok) :
    countItal (a ++ b) = countItal a + countItal b := by
  induction a with
  | nil => simp [countItal]
  | cons x t ih =>
    cases x <;> simp [countItal, ih] <;> omega

/-- Parity invariant of the conversion loop: the number of bold (italic)
markers emitted so far, plus the entry flag, plus the exit flag, is even. -/
theorem markupFold_parity : ∀ (s : List Nat) (ob oi : Bool),
    (countBold (markupFold s ob oi).1 + (if ob = true then 1 else 0)
        + (if (markupFold s ob oi).2.1 = true then 1 else 0)) % 2 = 0 ∧
      (countItal (markupFold s ob oi).1 + (if oi = true then 1 else 0)
        + (if (markupFold s ob oi).2.2 = true then 1 else 0)) % 2 = 0 := by
  intro s
  induction s with
  | nil =>
    intro ob oi
    cases ob <;> cases oi <;> simp [markupFold, countBold, countItal]
  | cons c t ih =>
    intro ob oi
    by_cases h1 : c = 2 ∨ (c = 15 ∧ ob = true)
    · have hstep : markupFold (c :: t) ob oi
          = (MTok.bold :: (markupFold t (!ob) oi).1, (markupFold t (!ob) oi).2) := by
        simp only [markupFold, if_pos h1]
      obtain ⟨ihb, ihi⟩ := ih (!ob) oi
      rw [hstep]
      constructor
      · simp only [countBold]
        cases ob <;> simp only [Bool.not_true, Bool.not_false] at ihb ⊢ <;>
          split at ihb <;> split <;> simp_all <;> omega
      · simpa [countItal] using ihi
    · by_cases h2 : c = 29 ∨ (c = 15 ∧ oi = true)
      · have hstep : markupFold (c :: t) ob oi
            = (MTok.ital :: (markupFold t ob (!oi)).1, (markupFold t ob (!oi)).2) := by
          simp only [markupFold, if_neg h1, if_pos h2]
        obtain ⟨ihb, ihi⟩ := ih ob (!oi)
        rw [hstep]
        constructor
        · simpa [countBold] using ihb
        · simp only [countItal]
          cases oi <;> simp only [Bool.not_true, Bool.not_false] at ihi ⊢ <;>
            split at ihi <;> split <;> simp_all <;> omega
      · have hstep : markupFold (c :: t) ob oi
            = (MTok.ch c :: (markupFold t ob oi).1, (markupFold t ob oi).2) := by
          simp only [markupFold, if_neg h1, if_neg h2]
        obtain ⟨ihb, ihi⟩ := ih ob oi
        rw [hstep]
        exact ⟨by simpa [countBold] using ihb, by simpa [countItal] using ihi⟩

/-- Claim C3, counterexample: the older main.rs conversion loop (src/main.rs
lines 709-740) does not balance markers.  On the cited code, the input
`\x02a\x02b` (two bold toggle bytes interleaved with text) yields
`**a**b**`: the first `\x02` already rewrites every `\x02` via the global
`replace`, the second sighting re-sets the sticky `has_opened_bold` flag, and
the force-close then appends a third, dangling `**` marker — an odd marker
count, so the claimed parity fails over this cited source location. -/
theorem C3_main_sticky_refutes :
    mainIrcMarkup [2, 97, 2, 98] = [42, 42, 97, 42, 42, 98, 42, 42] ∧
      countBoldMarkers (mainIrcMarkup [2, 97, 2, 98]) % 2 = 1 := by
  refine ⟨by decide, by decide⟩

/-- Claim C3, amended: for the Line→Rich conversion loop of
src/irc_discord.rs (lines 321-348), the markup emissions (bold toggles to
`**`, italic toggles to `*`, with the end-of-line force-close) are balanced
for every input line: the number of bold markers and the number of italic
markers are both even, so no unmatched marker dangles in `ircMarkupOut`'s
rendering.  (The older main.rs loop the claim also cites does not have this
property — see the counterexample `C3_main_sticky_refutes`.) -/
theorem C3_toggle_parity (s : List Nat) :
    countBold (markupTokens s) % 2 = 0 ∧ countItal (markupTokens s) % 2 = 0 := by
  obtain ⟨hb, hi⟩ := markupFold_parity s false false
  unfold markupTokens
  rw [countBold_append, countBold_append, countItal_append, countItal_append]
  constructor
  · have h1 : countBold (if (markupFold s false false).2.2 then [MTok.ital] else []) = 0 := by
      split <;> rfl
    have h2 : countBold (if (markupFold s false false).2.1 then [MTok.bold] else [])
        = (if (markupFold s false false).2.1 = true then 1 else 0) := by
      split <;> simp_all [countBold]
    simp only [h1, h2] at *
    split at hb <;> split <;> simp_all <;> omega
  · have h1 : countItal (if (markupFold s false false).2.2 then [MTok.ital] else [])
        = (if (markupFold s false false).2.2 = true then 1 else 0) := by
      split <;> simp_all [countItal]
    have h2 : countItal (if (markupFold s false false).2.1 then [MTok.bold] else []) = 0 := by
      split <;> rfl
    simp only [h1, h2] at *
    split at hi <;> split <;> simp_all <;> omega

/-! ### Claim C6: raw passthrough -/

/-- Claim C6, counterexample: the raw-passthrough test runs on the TRANSCODED
body, not the raw one.  For the message `++ <:smile:123>` the emoji
substitution (step 3) has already produced `++ :smile:` when the prefix is
stripped, so the literal line sent is `:smile:` — not the raw payload
`<:smile:123>`: steps 2-7 are not bypassed. -/
theorem C6_raw_passthrough_refutes :
    handlerSends [43, 43] [60, 110, 62, 32] 400
        (discord_to_irc_processing
          [43, 43, 32, 60, 58, 115, 109, 105, 108, 101, 58, 49, 50, 51, 62]
          [] (fun _ => none) (fun _ => none))
      = [[60, 110, 62, 32], [58, 115, 109, 105, 108, 101, 58]] ∧
      trimWs [32, 60, 58, 115, 109, 105, 108, 101, 58, 49, 50, 51, 62]
        ≠ [58, 115, 109, 105, 108, 101, 58] := by
  refine ⟨by decide, by decide⟩

/-- Claim C6, amended: when the TRANSCODED body starts with the configured
raw prefix and the trimmed remainder is nonempty, exactly two sends happen:
the badge prefix line, then the trimmed remainder (minus surrounding reset
bytes) as one literal line with no chunking; transcoding itself is applied
before the prefix test, not bypassed. -/
theorem C6_raw_passthrough_amended (rawPre pfx computed : List Nat) (limit : Nat)
    (stripped : List Nat)
    (hstrip : startsStrip rawPre computed = some stripped)
    (hne : trimWs stripped ≠ []) :
    handlerSends rawPre pfx limit computed = [pfx, trimChar15 (trimWs stripped)] := by
  unfold handlerSends
  rw [hstrip]
  simp only [if_pos hne]

/-- Witness: stripping `++` from the transcoded body `++a` leaves `a`, sent
as the prefix line plus one literal line. -/
theorem C6_raw_passthrough_amended_witness :
    handlerSends [43, 43] [112] 400 [43, 43, 97] = [[112], [97]] :=
  C6_raw_passthrough_amended [43, 43] [112] [43, 43, 97] 400 [97]
    (by decide) (by decide)

/-! ### Claim C7: delivery queue drops empty content -/

/-- Claim C7: the delivery-queue consumer performs network calls exactly for
the non-empty-content messages, in FIFO (sublist) order; an empty-content
message triggers no call and no error.  (The source's `Raw` arm names an
out-of-scope variable for this test — see `msg_task`'s comment — the theorem
holds for the evident intent.) -/
theorem C7_queue_drop_empty (queue : List QueuedMessage) :
    (msg_task queue).Sublist queue ∧ ∀ m ∈ msg_task queue, m.body ≠ [] := by
  induction queue with
  | nil => exact ⟨List.Sublist.slnil, by simp [msg_task]⟩
  | cons m rest ih =>
    obtain ⟨ihs, ihb⟩ := ih
    by_cases hb : m.body = []
    · rw [show msg_task (m :: rest) = msg_task rest from by simp [msg_task, hb]]
      exact ⟨ihs.cons m, ihb⟩
    · rw [show msg_task (m :: rest) = m :: msg_task rest from by simp [msg_task, hb]]
      refine ⟨ihs.cons₂ m, ?_⟩
      intro x hx
      rcases List.mem_cons.mp hx with rfl | hx
      · exact hb
      · exact ihb x hx

/-! ### Claim C8: whitespace-led mention-free lines are quoted literally -/

/-- Claim C8: a Platform-B line that starts with whitespace and contains no
`@mention` token is returned whole, wrapped in the fixed-width quote marker
(backquote, code point 96), with no mention/channel/emoji/action/control
processing and the id cache untouched. -/
theorem C8_whitespace_literal (message : List Nat) (members : List (Nat × List Nat))
    (idCache : IdCache) (channels emojis : List (Nat × List Nat))
    (hws : wsStart message = true) (hm : hasMention message = false) :
    irc_to_discord_processing message members idCache channels emojis
      = (96 :: message ++ [96], idCache) := by
  unfold irc_to_discord_processing
  rw [if_pos ⟨hws, hm⟩]

/-- Witness: the line `\x20art` is returned as `` `\x20art` `` verbatim. -/
theorem C8_whitespace_literal_witness :
    irc_to_discord_processing [32, 97, 114, 116] [] [] [] []
      = (96 :: [32, 97, 114, 116] ++ [96], []) :=
  C8_whitespace_literal [32, 97, 114, 116] [] [] [] [] (by decide) (by decide)

/-! ### Claim C9: roster update/removal misses -/

/-- Claim C9, counterexample: on a roster that does not contain the event's
member id, both `guild_member_update` and `guild_member_removal` hit
`position(...).unwrap()` on `None` — a panic that terminates the process
(modelled as `none`), not a logged-and-ignored miss. -/
theorem C9_roster_miss_refutes :
    guild_member_update [] (5, [97]) = none ∧ guild_member_removal [] 5 = none :=
  ⟨rfl, rfl⟩

/-- Claim C9, amended: a roster update or removal whose member id is absent
panics (unwrap of `None`) instead of being logged and ignored; no updated
roster is produced. -/
theorem C9_roster_miss_amended (roster : List (Nat × List Nat)) (new : Nat × List Nat)
    (userId : Nat)
    (hmiss1 : roster.findIdx? (fun mem => mem.1 == new.1) = none)
    (hmiss2 : roster.findIdx? (fun mem => mem.1 == userId) = none) :
    guild_member_update roster new = none ∧ guild_member_removal roster userId = none := by
  unfold guild_member_update guild_member_removal
  rw [hmiss1, hmiss2]
  exact ⟨rfl, rfl⟩

/-- Witness at a one-member roster missing the updated/removed id. -/
theorem C9_roster_miss_amended_witness :
    guild_member_update [(1, [97])] (5, [98]) = none ∧
      guild_member_removal [(1, [97])] 5 = none :=
  C9_roster_miss_amended [(1, [97])] (5, [98]) 5 (by decide) (by decide)
